import Mathlib

/-!
Verification of the `red` text editor's core buffer, search, selection,
completion-scoring and LSP-timeout logic, shallowly embedded from
`src/code.rs`, `src/selection.rs`, `src/utils.rs`, `src/editor.rs` and
`src/lsp.rs`.

The rope text is modelled as a `List Char` (ropey's char-indexed API), undo
and redo stacks as `List Change` with the top of the `Vec` stack at the head
(`Vec::push`/`Vec::pop` become cons/head).  `usize` arithmetic is `Nat`;
the one place where a `usize` subtraction can underflow (`Code::remove_char`)
is modelled with an explicit `Option`.
-/

/-- Chars inserted at char index `idx` (`ropey::Rope::insert`). -/
def insertChars (l : List Char) (idx : Nat) (t : List Char) : List Char :=
  l.take idx ++ t ++ l.drop idx

/-- Chars `[a, b)` removed (`ropey::Rope::remove(a..b)`). -/
def removeChars (l : List Char) (a b : Nat) : List Char :=
  l.take a ++ l.drop b

/-- Char slice `[a, b)` (`ropey::Rope::slice(a..b).to_string()`). -/
def sliceChars (l : List Char) (a b : Nat) : List Char :=
  (l.drop a).take (b - a)

/-- Number of newline chars. -/
def countNl (l : List Char) : Nat := l.countP (fun c => c == '\n')

/-- `ropey::Rope::len_lines`: number of lines, counting the line after a
trailing newline, so it is the newline count plus one. -/
def lenLines (l : List Char) : Nat := countNl l + 1

/-- `ropey::Rope::line_to_char`: char index of the start of line `n`, i.e.
the position just after the `n`-th newline (`l.length` when there are fewer
than `n` newlines, matching `line_to_char(len_lines) = len_chars`). -/
def lineToChar : List Char → Nat → Nat
  | _, 0 => 0
  | [], _ + 1 => 0
  | c :: cs, n + 1 => 1 + (if c == '\n' then lineToChar cs n else lineToChar cs (n + 1))

/-- `ropey::Rope::try_line_to_char`: `line_to_char` guarded by
`line_idx <= len_lines`, `Err` (here `none`) beyond that. -/
def tryLineToChar (l : List Char) (n : Nat) : Option Nat :=
  if n ≤ lenLines l then some (lineToChar l n) else none

/-- `ropey::Rope::char_to_line`: line containing char index `pos`
(= number of newlines strictly before `pos`). -/
def charToLine (l : List Char) (pos : Nat) : Nat := countNl (l.take pos)

/-- `ropey::Rope::char_to_byte`: byte index of char index `pos`. -/
def charToByte (l : List Char) (pos : Nat) : Nat :=
  ((l.take pos).map Char.utf8Size).sum

/-- `ropey::Rope::line_to_byte`. -/
def lineToByte (l : List Char) (n : Nat) : Nat := charToByte l (lineToChar l n)

/-- `Code::position_to_point` (code.rs:467): char position to
`(line, byte column within the line)`. -/
def position_to_point (l : List Char) (pos : Nat) : Nat × Nat :=
  let byte := charToByte l pos
  let line := charToLine l pos
  let lineStartByte := lineToByte l line
  (line, byte - lineStartByte)

/-- `Operation` (code.rs:1045). -/
inductive Operation where
  | Insert
  | Remove
  | Start
  | End
  deriving DecidableEq, Repr

/-- `Change` (code.rs:1054). -/
structure Change where
  start : Nat
  operation : Operation
  text : List Char
  row : Nat
  column : Nat
  deriving DecidableEq, Repr

/-- The fields of `Code` (code.rs:21) that the buffer operations touch:
text, changed flag, undo and redo stacks (the tree-sitter state is not
observable by any claim).  Stack top at the head. -/
structure Code where
  text : List Char
  changed : Bool
  undo_history : List Change
  redo_history : List Change
  deriving DecidableEq, Repr

/-- `Code::new` (code.rs:39), restricted to the modelled fields. -/
def Code.new : Code :=
  { text := [], changed := false, undo_history := [], redo_history := [] }

/-- `Code::insert` (code.rs:220): raw insert, sets `changed`. -/
def Code.insert (s : Code) (t : List Char) (frm : Nat) : Code :=
  { s with text := insertChars s.text frm t, changed := true }

/-- `Code::insert_text` (code.rs:238): insert at `(row, column)`, record the
change on the undo stack, clear the redo stack. -/
def Code.insert_text (s : Code) (t : List Char) (row column : Nat) : Code :=
  let frm := lineToChar s.text row + column
  let s1 := s.insert t frm
  { s1 with
    undo_history :=
      { start := frm, operation := .Insert, text := t, row := row, column := column }
        :: s1.undo_history,
    redo_history := [] }

/-- `Code::remove` (code.rs:268): raw remove, sets `changed`. -/
def Code.remove (s : Code) (frm upto : Nat) : Code :=
  { s with text := removeChars s.text frm upto, changed := true }

/-- `Code::remove_text` (code.rs:287): remove `(row, col)..(row1, col1)`,
record the removed text on the undo stack, clear the redo stack. -/
def Code.remove_text (s : Code) (row col row1 col1 : Nat) : Code :=
  let frm := lineToChar s.text row + col
  let upto := lineToChar s.text row1 + col1
  let t := sliceChars s.text frm upto
  let s1 := s.remove frm upto
  { s1 with
    undo_history :=
      { start := frm, operation := .Remove, text := t, row := row1, column := col1 }
        :: s1.undo_history,
    redo_history := [] }

/-- `Code::replace_text` (code.rs:308): a `Start`/`End` bracketed group of a
removal and an insertion. -/
def Code.replace_text (s : Code) (row col row1 col1 : Nat) (t : List Char) : Code :=
  let frm := lineToChar s.text row + col
  let s1 := { s with
    undo_history :=
      { start := frm, operation := .Start, text := [], row := row1, column := col1 }
        :: s.undo_history }
  let s2 := s1.remove_text row col row1 col1
  let s3 := s2.insert_text t row col
  let s4 := { s3 with
    undo_history :=
      { start := frm, operation := .End, text := [], row := row1, column := col1 }
        :: s3.undo_history }
  { s4 with redo_history := [] }

/-- `Code::remove_char` (code.rs:304): `remove_text(row, column-1, row, column)`
on a `usize` column; `column = 0` underflows the subtraction (a panic in the
source), modelled as `none`. -/
def Code.remove_char (s : Code) (row column : Nat) : Option Code :=
  if column = 0 then none
  else some (s.remove_text row (column - 1) row column)

/-- `Code::from_str` (code.rs:58). -/
def Code.from_str (t : List Char) : Code := Code.new.insert_text t 0 0

/-- Loop body of `Code::undo` (code.rs:1068).  The first argument is the
undo stack being popped (kept equal to `undo_history` of the state), `acc`
is the accumulated `MultipleChange`, `multiple` the grouped-mode flag.
Returns the final state and `Some` of the accumulated changes, or `none`
when the stack runs out (the source returns `None`). -/
def undoAux : List Change → Code → List Change → Bool → Code × Option (List Change)
  | [], s, _acc, _multiple => (s, none)
  | change :: rest, s, acc, multiple =>
    let s1 := { s with undo_history := rest }
    match change.operation with
    | Operation.Insert =>
      let frm := change.start
      let upto := frm + change.text.length
      let s2 := s1.remove frm upto
      let s3 := { s2 with redo_history := change :: s2.redo_history }
      if multiple then undoAux rest s3 (acc ++ [change]) multiple
      else (s3, some (acc ++ [change]))
    | Operation.Remove =>
      let s2 := s1.insert change.text change.start
      let s3 := { s2 with redo_history := change :: s2.redo_history }
      if multiple then undoAux rest s3 (acc ++ [change]) multiple
      else (s3, some (acc ++ [change]))
    | Operation.End => undoAux rest s1 acc true
    | Operation.Start => (s1, some acc)

/-- `Code::undo` (code.rs:1068). -/
def Code.undo (s : Code) : Code × Option (List Change) :=
  undoAux s.undo_history s [] false

/-- Loop body of `Code::redo` (code.rs:1102), symmetric to `undoAux`:
pops the redo stack, re-applies the change, pushes it back on the undo
stack. -/
def redoAux : List Change → Code → List Change → Bool → Code × Option (List Change)
  | [], s, _acc, _multiple => (s, none)
  | change :: rest, s, acc, multiple =>
    let s1 := { s with redo_history := rest }
    match change.operation with
    | Operation.Insert =>
      let s2 := s1.insert change.text change.start
      let s3 := { s2 with undo_history := change :: s2.undo_history }
      if multiple then redoAux rest s3 (acc ++ [change]) multiple
      else (s3, some (acc ++ [change]))
    | Operation.Remove =>
      let frm := change.start
      let upto := frm + change.text.length
      let s2 := s1.remove frm upto
      let s3 := { s2 with undo_history := change :: s2.undo_history }
      if multiple then redoAux rest s3 (acc ++ [change]) multiple
      else (s3, some (acc ++ [change]))
    | Operation.End => redoAux rest s1 acc true
    | Operation.Start => (s1, some acc)

/-- `Code::redo` (code.rs:1102). -/
def Code.redo (s : Code) : Code × Option (List Change) :=
  redoAux s.redo_history s [] false

/-- `Code::move_line_down` (code.rs:1200): swap line `line_idx` with the
next line, as a `Start`/`End` bracketed group of four edits. -/
def Code.move_line_down (s : Code) (line_idx : Nat) : Code × Bool :=
  let len_lines := lenLines s.text
  if len_lines ≤ 2 then (s, false) else
  match tryLineToChar s.text line_idx with
  | none => (s, false)
  | some line1_start =>
    match tryLineToChar s.text (line_idx + 1) with
    | none => (s, false)
    | some i1 =>
      let line1_end := i1 - 1
      match tryLineToChar s.text (line_idx + 1) with
      | none => (s, false)
      | some line2_start =>
        match tryLineToChar s.text (line_idx + 2) with
        | none => (s, false)
        | some i2 =>
          let line2_end := if i2 = s.text.length then i2 else i2 - 1
          let line_1 := sliceChars s.text line1_start line1_end
          let line_2 := sliceChars s.text line2_start line2_end
          let s1 := { s with
            undo_history :=
              { start := 0, operation := .Start, text := [], row := 0, column := 0 }
                :: s.undo_history }
          let s2 := s1.remove_text line_idx 0 line_idx line_1.length
          let s3 := s2.insert_text line_2 line_idx 0
          let s4 := s3.remove_text (line_idx + 1) 0 (line_idx + 1) line_2.length
          let s5 := s4.insert_text line_1 (line_idx + 1) 0
          let s6 := { s5 with
            undo_history :=
              { start := 0, operation := .End, text := [], row := 0, column := 0 }
                :: s5.undo_history }
          (s6, true)

/-- `Vec::swap_remove(i)`: replace element `i` with the last element and pop
(code.rs:841).  Only ever called with `i < l.length`, so `l` is nonempty. -/
def swapRemove {α : Type} (l : List α) (i : Nat) : List α :=
  match l.getLast? with
  | none => l
  | some last => (l.set i last).dropLast

/-- Inner `while i < possible_matches.len()` loop of `SearchIter::next`
(code.rs:822).  An element `(pc, rest)` is a `Chars` iterator into the search
pattern whose next char is `pc` with `rest` after it.  Each iteration either
advances `i` or shrinks the vector, so the loop runs at most
`pm.length - i` more times; `fuel` is that bound, making the recursion
structural.  Returns the completed match range (after which the source clears
the vector and returns) or the surviving vector. -/
def searchInner (c : Char) (patLen curIndex : Nat) :
    Nat → List (Char × List Char) → Nat → Option (Nat × Nat) × List (Char × List Char)
  | 0, pm, _ => (none, pm)
  | fuel + 1, pm, i =>
    match pm.get? i with
    | none => (none, pm)
    | some e =>
      if c = e.1 then
        match e.2 with
        | [] => (some (curIndex - patLen, curIndex), [])
        | r :: rs => searchInner c patLen curIndex fuel (pm.set i (r, rs)) (i + 1)
      else searchInner c patLen curIndex fuel (swapRemove pm i) i

/-- Outer `while let Some(next_char)` loop of `SearchIter::next`, iterated to
collect all matches (code.rs:809): `cur_index` counts consumed chars, each
char first pushes a fresh pattern iterator `(p, ps)`, then the inner loop
filters the candidates; on a completed match the vector is cleared and the
match's char range emitted. -/
def searchLoop (p : Char) (ps : List Char) :
    List Char → Nat → List (Char × List Char) → List (Nat × Nat)
  | [], _, _ => []
  | c :: cs, curIndex, pm =>
    let curIndex1 := curIndex + 1
    let pm1 := pm ++ [(p, ps)]
    match searchInner c (ps.length + 1) curIndex1 pm1.length pm1 0 with
    | (some range, _) => range :: searchLoop p ps cs curIndex1 []
    | (none, pm2) => searchLoop p ps cs curIndex1 pm2

/-- `Code::search` (code.rs:476): run `SearchIter::from_rope_slice` over the
whole text and map each match start through `position_to_point`.  The
constructor `assert!`s the pattern is nonempty (code.rs:791); the empty
pattern is modelled as `none`. -/
def Code.search (s : Code) (pat : List Char) : Option (List (Nat × Nat)) :=
  match pat with
  | [] => none
  | p :: ps =>
    some ((searchLoop p ps s.text 0 []).map (fun r => position_to_point s.text r.1))

/-- Index of the first occurrence of `p :: ps` as a sublist of the text
(reference definition for the search correctness statement). -/
def firstOcc (p : Char) (ps : List Char) : List Char → Option Nat
  | [] => none
  | c :: cs =>
    if (p :: ps).isPrefixOf (c :: cs) then some 0
    else (firstOcc p ps cs).map (fun j => j + 1)

/-- Reference description of the search result: repeatedly report the
leftmost occurrence of the pattern at or after the current position, then
resume just past its end, so occurrences overlapping a reported match are
skipped.  `fuel` only bounds the recursion (any `fuel > t.length` is exact);
`base` is the absolute position of `t`'s head. -/
def greedySearch (p : Char) (ps : List Char) : Nat → List Char → Nat → List Nat
  | 0, _, _ => []
  | fuel + 1, t, base =>
    match firstOcc p ps t with
    | none => []
    | some s =>
      (base + s) ::
        greedySearch p ps fuel (t.drop (s + (ps.length + 1))) (base + s + (ps.length + 1))

/-- Rust `str::len`: byte length of a string. -/
def strByteLen (l : List Char) : Nat := (l.map Char.utf8Size).sum

/-- Rust `str::find`: byte index of the first occurrence of `pat` in `src`
(`Some(0)` for the empty pattern). -/
def findSub (src pat : List Char) : Option Nat :=
  match pat with
  | [] => some 0
  | p :: ps => (firstOcc p ps src).map (fun j => charToByte src j)

/-- Rust `str::matches(pat).count()`: number of disjoint (leftmost,
non-overlapping) occurrences; the empty pattern matches at every char
boundary. -/
def countMatches (src pat : List Char) : Nat :=
  match pat with
  | [] => src.length + 1
  | p :: ps => (greedySearch p ps (src.length + 1) src 0).length

/-- `score_matches` (utils.rs:48): prefix bonus 1000, 10 per disjoint
occurrence, 500 when the first occurrence's byte index is in `(0, 5)`. -/
def score_matches (src match_str : List Char) : Int :=
  let score1 : Int := if match_str.isPrefixOf src then 1000 else 0
  let score2 : Int := score1 + (countMatches src match_str : Int) * 10
  match findSub src match_str with
  | some initial_index =>
    if 0 < initial_index ∧ initial_index < 5 then score2 + 500 else score2
  | none => score2

/-- The completion comparator of `Editor::handle_completion`
(editor.rs:2313): score descending, ties by label byte length ascending. -/
def completionCmp (prev_word a b : List Char) : Ordering :=
  let sa := score_matches a prev_word
  let sb := score_matches b prev_word
  let r := compare sb sa
  if r = Ordering.eq then compare (strByteLen a) (strByteLen b) else r

/-- `completion_result.sort_by(...)` (editor.rs:2313): Rust's `sort_by` is a
stable sort, whose output is uniquely determined by the comparator's
less-or-equal relation; modelled by insertion sort with that relation. -/
def sortCompletions (prev_word : List Char) (items : List (List Char)) :
    List (List Char) :=
  List.insertionSort (fun a b => completionCmp prev_word a b ≠ Ordering.gt) items

/-- Rust's truncating `usize as i32` cast: keep the low 32 bits and
reinterpret them as a two's-complement signed value. -/
def usizeToI32 (n : Nat) : Int :=
  if n % 2 ^ 32 < 2 ^ 31 then ((n % 2 ^ 32 : Nat) : Int)
  else ((n % 2 ^ 32 : Nat) : Int) - 2 ^ 32

/-- `Point` (selection.rs:1), `i32` coordinates as `Int`. -/
structure SelPoint where
  y : Int
  x : Int
  deriving DecidableEq, Repr

/-- `Point::greater_than` (selection.rs:7). -/
def SelPoint.greater_than (self other : SelPoint) : Bool :=
  if self.y > other.y then true
  else self.y == other.y && self.x > other.x

/-- `Point::less_than` (selection.rs:11). -/
def SelPoint.less_than (self other : SelPoint) : Bool :=
  if self.y < other.y then true
  else self.y == other.y && self.x < other.x

/-- `Point::greater_equal` (selection.rs:15). -/
def SelPoint.greater_equal (self other : SelPoint) : Bool :=
  if self.y > other.y then true
  else if self.y == other.y && self.x >= other.x then true
  else false

/-- `Point::equal` (selection.rs:24). -/
def SelPoint.equal (self other : SelPoint) : Bool :=
  self.y == other.y && self.x == other.x

/-- `Selection` (selection.rs:31).  The unset sentinel is `-1`. -/
structure Selection where
  start : SelPoint
  stop : SelPoint
  active : Bool
  keep_once : Bool
  deriving DecidableEq, Repr

/-- `Selection::empty` (selection.rs:59). -/
def Selection.empty (s : Selection) : Bool :=
  if s.start.x == -1 || s.start.y == -1 || s.stop.x == -1 || s.stop.y == -1 then true
  else s.start.equal s.stop

/-- `Selection::contains` (selection.rs:80): the position is converted by
the wrapping `x as i32` / `y as i32` casts before the comparison. -/
def Selection.contains (s : Selection) (y x : Nat) : Bool :=
  if s.empty then false
  else
    let p : SelPoint := { x := usizeToI32 x, y := usizeToI32 y }
    if s.start.greater_than s.stop then
      p.greater_equal s.stop && p.less_than s.start
    else
      p.greater_equal s.start && p.less_than s.stop

/-- `Selection::is_selected` (selection.rs:94). -/
def Selection.is_selected (s : Selection) (y x : Nat) : Bool :=
  let allowed := s.active || s.keep_once
  let contains := s.contains y x
  allowed && contains

/-- The anchor that comes first in document order (`Selection::from`,
selection.rs:100, before the `usize` cast). -/
def Selection.lo (s : Selection) : SelPoint :=
  if s.start.greater_than s.stop then s.stop else s.start

/-- The anchor that comes second in document order (`Selection::to`,
selection.rs:104, before the `usize` cast). -/
def Selection.hi (s : Selection) : SelPoint :=
  if s.start.greater_than s.stop then s.start else s.stop

/-- Timeout of `Lsp::wait_for` (lsp.rs:204): `Duration::from_secs(1)`. -/
def wait_for_secs : Nat := 1

/-- `Lsp::wait_for` (lsp.rs:203): `tokio::select!` between the response
channel and the timeout sleep.  The environment is abstracted as the arrival
time (in seconds after the send) of the server's response, if it ever
arrives; an arrival after the deadline loses the select race. -/
def wait_for (arrival : Option (Nat × String)) : Option String :=
  match arrival with
  | some a => if a.1 < wait_for_secs then some a.2 else none
  | none => none

/-- The `pending` map of `Lsp`, keyed by request id (lsp.rs:196). -/
structure LspPendingMap where
  pending : List Nat
  deriving DecidableEq, Repr

/-- `Lsp::add_pending` (lsp.rs:196). -/
def add_pending (m : LspPendingMap) (id : Nat) : LspPendingMap :=
  { pending := id :: m.pending }

/-- `Lsp::remove_pending` (lsp.rs:199). -/
def remove_pending (m : LspPendingMap) (id : Nat) : LspPendingMap :=
  { pending := m.pending.filter (fun x => x != id) }

/-- Common request shape of `Lsp::completion` / `definition` / `references`
/ `hover` (lsp.rs:277-393): register the pending entry, send, wait with
`wait_for`, remove the pending entry, return the raw result. -/
def lsp_request (m : LspPendingMap) (id : Nat) (arrival : Option (Nat × String)) :
    LspPendingMap × Option String :=
  let m1 := add_pending m id
  let result := wait_for arrival
  let m2 := remove_pending m1 id
  (m2, result)

/-- `Lsp::init` (lsp.rs:213) waits for the initialize response with the very
same `wait_for` (id 0). -/
def lsp_init_wait (m : LspPendingMap) (arrival : Option (Nat × String)) :
    LspPendingMap × Option String :=
  lsp_request m 0 arrival

/-- The surviving pattern iterators after the inner search loop processes
char `c` with no completed match: iterators whose next char is `c` advance,
the others are discarded (reference description for `searchInner`). -/
def advancePM (c : Char) (pm : List (Char × List Char)) : List (Char × List Char) :=
  pm.filterMap (fun e =>
    if e.1 = c then
      match e.2 with
      | [] => none
      | r :: rs => some (r, rs)
    else none)

/-- The first `k - j` pattern chars match the text at position `j`
(candidate-match invariant of the search loop). -/
def matchUpTo (p : Char) (ps u : List Char) (j k : Nat) : Prop :=
  ∀ m, m < k - j → (p :: ps).get? m = u.get? (j + m)

/-- Invariant of `searchLoop`'s candidate vector after consuming `k` chars of
`u` since the last reported match: the vector holds exactly the pattern
iterators of the starts `j < k` that still match and are incomplete, and no
full occurrence has already ended. -/
def pmInv (p : Char) (ps u : List Char) (k : Nat)
    (pm : List (Char × List Char)) : Prop :=
  (∀ x ∈ pm, ∃ j, j < k ∧ k - j < ps.length + 1 ∧ matchUpTo p ps u j k ∧
      (p :: ps).drop (k - j) = x.1 :: x.2) ∧
  (∀ j, j < k → k - j < ps.length + 1 → matchUpTo p ps u j k →
      ∃ x ∈ pm, (p :: ps).drop (k - j) = x.1 :: x.2) ∧
  (∀ j, j + (ps.length + 1) ≤ k → ¬ matchUpTo p ps u j (j + (ps.length + 1)))

/-- One backward step of the undo loop is exact: an `Insert` change entry
recorded the inserted text and start (so removing that span restores the
previous text `tp`), a `Remove` entry recorded the removed slice (so
inserting it back restores `tp`); bracket markers never reach the loop's
Insert/Remove arms. -/
def RevStep (ch : Change) (t tp : List Char) : Prop :=
  match ch.operation with
  | Operation.Insert => ch.start ≤ tp.length ∧ t = insertChars tp ch.start ch.text
  | Operation.Remove =>
    ∃ b, ch.start ≤ b ∧ t = removeChars tp ch.start b ∧ ch.text = sliceChars tp ch.start b
  | _ => False

/-- `RevChain chs t t0`: undoing the changes `chs` (top of stack first)
starting from text `t` passes through exact intermediate texts and ends at
`t0`. -/
def RevChain : List Change → List Char → List Char → Prop
  | [], t, t0 => t = t0
  | ch :: chs, t, t0 => ∃ tp, RevStep ch t tp ∧ RevChain chs tp t0

/-! ### Helper lemmas -/

theorem tryLineToChar_some_le {l : List Char} {n v : Nat}
    (h : tryLineToChar l n = some v) : n ≤ lenLines l := by
  unfold tryLineToChar at h
  by_cases hn : n ≤ lenLines l
  · exact hn
  · simp [hn] at h

theorem tryLineToChar_eq_some {l : List Char} {n : Nat} (h : n ≤ lenLines l) :
    tryLineToChar l n = some (lineToChar l n) := by
  unfold tryLineToChar
  simp [h]

/-! ### Claim theorems (easy group) -/

def c1_start : Code := Code.from_str "1\n2\n3\n4".toList

def c1_moved : Code := (c1_start.move_line_down 2).1

def c1_undone : Code := c1_moved.undo.1

def c1_redone : Code := c1_undone.redo.1

/-- Claim C1: redo after any sequence of pure undos exactly reconstructs the
document, grouped operations being reapplied as one unit.  The code fails
this: `undo` transfers only the inner Insert/Remove entries of a group to the
redo stack and drops the `Start`/`End` markers, so one `redo` after the
grouped `move_line_down` was undone reapplies a single inner change and
leaves `"1\n2\n\n4"` instead of `"1\n2\n4\n3"`. -/
theorem C1_redo_after_grouped_undo_fails :
    (c1_start.move_line_down 2).2 = true ∧
    c1_moved.text = "1\n2\n4\n3".toList ∧
    c1_undone.text = "1\n2\n3\n4".toList ∧
    c1_redone.text = "1\n2\n\n4".toList ∧
    ¬ c1_redone.text = "1\n2\n4\n3".toList := by decide

/-- Claim C2 (counterexample): the claim says a request waits up to 3 seconds
(5 for initialize), so a response arriving after 2 seconds (resp. 4) would be
received; the code's 1-second watchdog drops both. -/
theorem C2_counterexample :
    (lsp_request ⟨[]⟩ 7 (some (2, "resp"))).2 = none ∧
    (lsp_init_wait ⟨[]⟩ (some (4, "resp"))).2 = none := by decide

/-- Claim C2 (amended): every LSP request, the initialize request included,
waits for its response up to the single 1-second `wait_for` timeout; on
timeout the pending entry is removed and the call returns `none`. -/
theorem C2_timeout_one_second (m : LspPendingMap) (id t : Nat) (msg : String)
    (ht : wait_for_secs ≤ t) :
    wait_for_secs = 1 ∧
    (lsp_request m id (some (t, msg))).2 = none ∧
    (lsp_request m id none).2 = none ∧
    id ∉ (lsp_request m id (some (t, msg))).1.pending ∧
    id ∉ (lsp_request m id none).1.pending ∧
    (lsp_init_wait m (some (t, msg))).2 = none := by
  have hw : wait_for (some (t, msg)) = none := by
    unfold wait_for
    simp only []
    rw [if_neg]
    omega
  refine ⟨rfl, ?_, rfl, ?_, ?_, ?_⟩
  · simp [lsp_request, hw]
  · simp [lsp_request, remove_pending, add_pending, List.mem_filter]
  · simp [lsp_request, remove_pending, add_pending, List.mem_filter]
  · simp [lsp_init_wait, lsp_request, hw]

theorem C2_timeout_one_second_witness :
    wait_for_secs = 1 ∧ (lsp_request ⟨[]⟩ 3 (some (2, "m"))).2 = none := by
  have h := C2_timeout_one_second ⟨[]⟩ 3 2 "m" (by decide)
  exact ⟨h.1, h.2.1⟩

def c3_items : List (List Char) :=
  ["range".toList, "randint".toList, "raise".toList, "rangefinder".toList]

/-- Claim C3 (counterexample): the claimed order puts "randint" before
"raise", but both score 0 and the tie-break is label length ascending, so
"raise" (5 bytes) sorts before "randint" (7 bytes). -/
theorem C3_counterexample :
    ¬ sortCompletions "range".toList c3_items
        = ["range".toList, "rangefinder".toList, "randint".toList, "raise".toList] := by
  decide

/-- Claim C3 (amended): sorting those items against prev-word "range" with
the completion comparator yields
["range", "rangefinder", "raise", "randint"]. -/
theorem C3_sort_order :
    sortCompletions "range".toList c3_items
      = ["range".toList, "rangefinder".toList, "raise".toList, "randint".toList] := by
  decide

/-- Claim C7: after each public edit operation the redo stack is empty and
the changed flag is set, whatever the prior state. -/
theorem C7_edit_clears_redo_sets_changed (s : Code) (t : List Char) (r c r1 c1 : Nat) :
    ((s.insert_text t r c).redo_history = [] ∧ (s.insert_text t r c).changed = true) ∧
    ((s.remove_text r c r1 c1).redo_history = [] ∧
      (s.remove_text r c r1 c1).changed = true) ∧
    ((s.replace_text r c r1 c1 t).redo_history = [] ∧
      (s.replace_text r c r1 c1 t).changed = true) :=
  ⟨⟨rfl, rfl⟩, ⟨rfl, rfl⟩, ⟨rfl, rfl⟩⟩

/-- Claim C10: searching with the empty pattern hits the constructor's
assert (modelled `none`) for every document; any nonempty pattern yields a
result. -/
theorem C10_empty_pattern_asserts :
    (∀ s : Code, s.search [] = none) ∧
    ∀ (s : Code) (p : Char) (ps : List Char), ∃ r, s.search (p :: ps) = some r :=
  ⟨fun _ => rfl, fun _ _ _ => ⟨_, rfl⟩⟩

/-- Claim C9: `remove_char(row, 0)` underflows the usize subtraction (`none`
in the model); with `column ≥ 1` it is `remove_text(row, column-1, row,
column)`, removing exactly the char at index `line_start + column - 1`. -/
theorem C9_remove_char (s : Code) (row col : Nat) :
    s.remove_char row 0 = none ∧
    (1 ≤ col →
      s.remove_char row col = some (s.remove_text row (col - 1) row col) ∧
      (s.remove_text row (col - 1) row col).text
        = s.text.eraseIdx (lineToChar s.text row + (col - 1)) ∧
      (lineToChar s.text row + col ≤ s.text.length →
        (s.remove_text row (col - 1) row col).text.length = s.text.length - 1)) := by
  constructor
  · simp [Code.remove_char]
  · intro hc
    have hcol : col - 1 + 1 = col := by omega
    have h0 : ¬ col = 0 := by omega
    refine ⟨by simp [Code.remove_char, h0], ?_, ?_⟩
    · have harg : lineToChar s.text row + col
          = lineToChar s.text row + (col - 1) + 1 := by omega
      simp only [Code.remove_text, Code.remove, removeChars, harg]
      rw [List.eraseIdx_eq_take_drop_succ]
    · intro hlen
      simp only [Code.remove_text, Code.remove, removeChars, List.length_append,
        List.length_take, List.length_drop]
      omega

theorem C9_remove_char_witness :
    (Code.from_str "ab".toList).remove_char 0 0 = none ∧
    (Code.from_str "ab".toList).remove_char 0 2
      = some ((Code.from_str "ab".toList).remove_text 0 1 0 2) := by
  refine ⟨(C9_remove_char (Code.from_str "ab".toList) 0 0).1,
    ((C9_remove_char (Code.from_str "ab".toList) 0 2).2 (by decide)).1⟩

/-- Claim C5: `move_line_down(i)` is a no-op returning `false`, leaving text,
undo history, redo history and changed flag unchanged, when
`i >= len_lines - 1` or `len_lines <= 2`. -/
theorem C5_move_line_down_noop (s : Code) (i : Nat)
    (h : lenLines s.text - 1 ≤ i ∨ lenLines s.text ≤ 2) :
    s.move_line_down i = (s, false) := by
  simp only [Code.move_line_down]
  by_cases hL : lenLines s.text ≤ 2
  · rw [if_pos hL]
  · rw [if_neg hL]
    split
    · rfl
    next v1 heq1 =>
      split
      · rfl
      next v2 heq2 =>
        split
        · rfl
        next v3 heq3 =>
          split
          · rfl
          next v4 heq4 =>
            exfalso
            have h4 := tryLineToChar_some_le heq4
            omega

theorem C5_move_line_down_noop_witness :
    (Code.from_str "a\nb\nc".toList).move_line_down 2
      = (Code.from_str "a\nb\nc".toList, false) :=
  C5_move_line_down_noop (Code.from_str "a\nb\nc".toList) 2 (by decide)

theorem SelPoint.greater_than_iff (a b : SelPoint) :
    a.greater_than b = true ↔ (b.y < a.y ∨ (a.y = b.y ∧ b.x < a.x)) := by
  simp [SelPoint.greater_than]

theorem SelPoint.less_than_iff (a b : SelPoint) :
    a.less_than b = true ↔ (a.y < b.y ∨ (a.y = b.y ∧ a.x < b.x)) := by
  simp [SelPoint.less_than]

theorem SelPoint.greater_equal_iff (a b : SelPoint) :
    a.greater_equal b = true ↔ (b.y < a.y ∨ (a.y = b.y ∧ b.x ≤ a.x)) := by
  simp [SelPoint.greater_equal]

theorem SelPoint.equal_iff (a b : SelPoint) :
    a.equal b = true ↔ (a.y = b.y ∧ a.x = b.x) := by
  simp [SelPoint.equal]

theorem Selection.empty_false_iff (s : Selection) :
    s.empty = false ↔
      ((s.start.x ≠ -1 ∧ s.start.y ≠ -1 ∧ s.stop.x ≠ -1 ∧ s.stop.y ≠ -1) ∧
       ¬ (s.start.y = s.stop.y ∧ s.start.x = s.stop.x)) := by
  unfold Selection.empty
  by_cases hd : (s.start.x == -1 || s.start.y == -1 || s.stop.x == -1
      || s.stop.y == -1) = true
  · rw [if_pos hd]
    simp only [Bool.or_eq_true, beq_iff_eq] at hd
    constructor
    · intro h; simp at h
    · rintro ⟨⟨h1, h2, h3, h4⟩, -⟩
      exact absurd hd (by tauto)
  · rw [if_neg hd]
    simp only [Bool.or_eq_true, beq_iff_eq] at hd
    push_neg at hd
    have heq : (SelPoint.equal s.start s.stop = false)
        ↔ ¬ (SelPoint.equal s.start s.stop = true) := by simp
    rw [heq, SelPoint.equal_iff]
    tauto

def c8_sel : Selection :=
  { start := { y := 0, x := 0 }, stop := { y := 3, x := 0 },
    active := true, keep_once := false }

/-- Claim C8 (counterexample): with set, distinct anchors (0,0) and (3,0)
and the selection active, the claim as stated says `is_selected(r, c)` is
true only when `(r, c)` lies in `[(0,0), (3,0))` in document order; but the
wrapping `as i32` cast truncates the row `2^32` to `0`, so the program
returns true for `(2^32, 1)` although row `2^32` does not precede the upper
anchor's row `3`. -/
theorem C8_counterexample :
    c8_sel.is_selected (2 ^ 32) 1 = true ∧
    (c8_sel.active || c8_sel.keep_once) = true ∧
    (c8_sel.start.x ≠ -1 ∧ c8_sel.start.y ≠ -1 ∧
      c8_sel.stop.x ≠ -1 ∧ c8_sel.stop.y ≠ -1) ∧
    ¬ (c8_sel.start.y = c8_sel.stop.y ∧ c8_sel.start.x = c8_sel.stop.x) ∧
    c8_sel.lo = { y := 0, x := 0 } ∧
    c8_sel.hi = { y := 3, x := 0 } ∧
    ¬ ((2 ^ 32 : Nat) < 3 ∨ ((2 ^ 32 : Nat) = 3 ∧ (1 : Nat) < 0)) := by decide

/-- Claim C8 (amended): `is_selected(r, c)` is true iff the selection is
allowed (`active || keep_once`), both anchors are set (no `-1` coordinate),
the anchors do not coincide, and the position's coordinates as converted by
the wrapping `as i32` casts lie in the half-open interval from the
document-order-lower anchor (inclusive) to the higher one (exclusive),
regardless of which anchor was set first. -/
theorem C8_is_selected_iff (s : Selection) (r c : Nat) :
    s.is_selected r c = true ↔
      ((s.active || s.keep_once) = true ∧
       (s.start.x ≠ -1 ∧ s.start.y ≠ -1 ∧ s.stop.x ≠ -1 ∧ s.stop.y ≠ -1) ∧
       ¬ (s.start.y = s.stop.y ∧ s.start.x = s.stop.x) ∧
       SelPoint.greater_equal ⟨usizeToI32 r, usizeToI32 c⟩ s.lo = true ∧
       SelPoint.less_than ⟨usizeToI32 r, usizeToI32 c⟩ s.hi = true) := by
  unfold Selection.is_selected Selection.contains Selection.lo Selection.hi
  by_cases he : s.empty = true
  · rw [if_pos he]
    simp only [Bool.and_false]
    constructor
    · intro h; simp at h
    · rintro ⟨-, hset, hne, -, -⟩
      have hf : s.empty = false := (Selection.empty_false_iff s).mpr ⟨hset, hne⟩
      rw [he] at hf
      simp at hf
  · rw [if_neg he]
    have he1 : s.empty = false := by
      rcases Bool.dichotomy s.empty with h | h
      · exact h
      · exact absurd h he
    have hsc := (Selection.empty_false_iff s).mp he1
    by_cases hgt : s.start.greater_than s.stop = true
    · rw [if_pos hgt, if_pos hgt, if_pos hgt]
      simp only [Bool.and_eq_true]
      tauto
    · rw [if_neg hgt, if_neg hgt, if_neg hgt]
      simp only [Bool.and_eq_true]
      tauto

theorem lineToChar_le_length (l : List Char) (n : Nat) : lineToChar l n ≤ l.length := by
  induction l generalizing n with
  | nil => cases n <;> simp [lineToChar]
  | cons c cs ih =>
    cases n with
    | zero => simp [lineToChar]
    | succ m =>
      simp only [lineToChar, List.length_cons]
      split
      · have := ih m; omega
      · have := ih (m + 1); omega

theorem remove_insertChars (l t : List Char) (p : Nat) (hp : p ≤ l.length) :
    removeChars (insertChars l p t) p (p + t.length) = l := by
  unfold removeChars insertChars
  have htk : (l.take p).length = p := by simp [List.length_take]; omega
  have h1 : ((l.take p ++ t) ++ l.drop p).take p = l.take p := by
    rw [List.append_assoc]
    exact List.take_left' htk
  have h2 : ((l.take p ++ t) ++ l.drop p).drop (p + t.length) = l.drop p := by
    apply List.drop_left'
    simp [htk]
  rw [h1, h2, List.take_append_drop]

theorem insert_removeChars (l : List Char) (a b : Nat) (hab : a ≤ b) :
    insertChars (removeChars l a b) a (sliceChars l a b) = l := by
  unfold insertChars removeChars sliceChars
  by_cases hal : a ≤ l.length
  · have htk : (l.take a).length = a := by simp [List.length_take]; omega
    rw [List.take_left' htk, List.drop_left' htk]
    have hdd : l.drop b = (l.drop a).drop (b - a) := by
      rw [List.drop_drop]
      congr 1
      omega
    rw [hdd, List.append_assoc, List.take_append_drop, List.take_append_drop]
  · have h1 : l.take a = l := List.take_of_length_le (by omega)
    have h2 : l.drop b = [] := List.drop_eq_nil_of_le (by omega)
    have h3 : l.drop a = [] := List.drop_eq_nil_of_le (by omega)
    rw [h1, h2, h3]
    simp only [List.append_nil, List.take_nil, List.nil_append]
    rw [h1, h3]
    simp

theorem undoAux_end_step (st : Nat) (tx : List Char) (r c : Nat)
    (rest : List Change) (s : Code) (acc : List Change) :
    undoAux
        ({ start := st, operation := Operation.End, text := tx, row := r, column := c }
          :: rest) s acc false
      = undoAux rest { s with undo_history := rest } acc true := by
  simp [undoAux]

theorem undoAux_group (chs : List Change) (mark : Change) (rest : List Change)
    (s : Code) (acc : List Change) (t0 : List Char)
    (hmark : mark.operation = Operation.Start)
    (hchain : RevChain chs s.text t0) :
    (undoAux (chs ++ mark :: rest) s acc true).1.text = t0 := by
  induction chs generalizing s acc with
  | nil =>
    simp only [List.nil_append, undoAux, hmark]
    exact hchain
  | cons ch chs ih =>
    rcases hchain with ⟨tp, hstep, hrest⟩
    unfold RevStep at hstep
    cases hop : ch.operation with
    | Insert =>
      rw [hop] at hstep
      rcases hstep with ⟨hle, hins⟩
      simp only [List.cons_append, undoAux, hop, if_pos]
      apply ih
      simp only [Code.remove]
      rw [hins, remove_insertChars tp ch.text ch.start hle]
      exact hrest
    | Remove =>
      rw [hop] at hstep
      rcases hstep with ⟨b, hab, hrem, htxt⟩
      simp only [List.cons_append, undoAux, hop, if_pos]
      apply ih
      simp only [Code.insert]
      rw [hrem, htxt, insert_removeChars tp ch.start b hab]
      exact hrest
    | Start => rw [hop] at hstep; cases hstep
    | End => rw [hop] at hstep; cases hstep

/-- Claim C6: for every in-range line index (`len_lines >= 3`,
`i < len_lines - 1`), `move_line_down(i)` followed by one `undo()` restores
the original buffer text; concretely `"1\n2\n3\n4"` with
`move_line_down(2)` gives `"1\n2\n4\n3"` and undo restores `"1\n2\n3\n4"`. -/
theorem C6_move_line_down_undo (s : Code) (i : Nat) (h3 : 3 ≤ lenLines s.text)
    (hi : i < lenLines s.text - 1) :
    ((s.move_line_down i).1.undo).1.text = s.text ∧
    ((Code.from_str "1\n2\n3\n4".toList).move_line_down 2).1.text
      = "1\n2\n4\n3".toList ∧
    (((Code.from_str "1\n2\n3\n4".toList).move_line_down 2).1.undo).1.text
      = "1\n2\n3\n4".toList := by
  refine ⟨?_, by decide, by decide⟩
  have h0 : tryLineToChar s.text i = some (lineToChar s.text i) :=
    tryLineToChar_eq_some (by omega)
  have h1 : tryLineToChar s.text (i + 1) = some (lineToChar s.text (i + 1)) :=
    tryLineToChar_eq_some (by omega)
  have h2 : tryLineToChar s.text (i + 2) = some (lineToChar s.text (i + 2)) :=
    tryLineToChar_eq_some (by omega)
  have hL : ¬ lenLines s.text ≤ 2 := by omega
  simp only [Code.move_line_down, h0, h1, h2, if_neg hL]
  simp only [Code.undo, Code.remove_text, Code.insert_text, Code.insert, Code.remove]
  rw [undoAux_end_step]
  refine undoAux_group [_, _, _, _] _ _ _ _ s.text rfl ?_
  simp only [RevChain, RevStep]
  refine ⟨_, ⟨?_, rfl⟩, _, ⟨_, ?_, rfl, rfl⟩, _, ⟨?_, rfl⟩, _, ⟨_, ?_, rfl, rfl⟩, rfl⟩
  · simp only [Nat.add_zero]
    exact lineToChar_le_length _ _
  · omega
  · simp only [Nat.add_zero]
    exact lineToChar_le_length _ _
  · omega

theorem C6_move_line_down_undo_witness :
    (((Code.from_str "1\n2\n3\n4".toList).move_line_down 2).1.undo).1.text
      = (Code.from_str "1\n2\n3\n4".toList).text :=
  (C6_move_line_down_undo (Code.from_str "1\n2\n3\n4".toList) 2 (by decide) (by decide)).1

theorem swapRemove_length {α : Type} (pm : List α) (i : Nat) (h : i < pm.length) :
    (swapRemove pm i).length = pm.length - 1 := by
  unfold swapRemove
  have hne : pm ≠ [] := by
    intro hc
    rw [hc] at h
    simp at h
  rw [List.getLast?_eq_getLast pm hne]
  simp

theorem swapRemove_take {α : Type} (pm : List α) (i : Nat) (h : i < pm.length) :
    (swapRemove pm i).take i = pm.take i := by
  unfold swapRemove
  have hne : pm ≠ [] := by
    intro hc
    rw [hc] at h
    simp at h
  simp only [List.getLast?_eq_getLast pm hne]
  rw [List.set_eq_take_cons_drop _ h]
  by_cases hr : pm.drop (i + 1) = []
  · rw [hr, List.dropLast_concat]
    simp [List.take_take]
  · rw [List.dropLast_append_of_ne_nil _ (by simp)]
    exact List.take_left' (by simp; omega)

theorem swapRemove_drop_mem {α : Type} (pm : List α) (i : Nat) (h : i < pm.length)
    (x : α) : x ∈ (swapRemove pm i).drop i ↔ x ∈ pm.drop (i + 1) := by
  unfold swapRemove
  have hne : pm ≠ [] := by
    intro hc
    rw [hc] at h
    simp at h
  by_cases hr : pm.drop (i + 1) = []
  · simp only [List.getLast?_eq_getLast pm hne]
    rw [List.set_eq_take_cons_drop _ h]
    rw [hr, List.dropLast_concat]
    rw [List.drop_eq_nil_of_le (by simp)]
  · have hgl : pm.getLast? = (pm.drop (i + 1)).getLast? := by
      conv_lhs => rw [← List.take_append_drop (i + 1) pm]
      exact List.getLast?_append_of_ne_nil _ hr
    simp only [hgl, List.getLast?_eq_getLast _ hr]
    rw [List.set_eq_take_cons_drop _ h]
    rw [List.dropLast_append_of_ne_nil _ (by simp)]
    rw [List.dropLast_cons_of_ne_nil hr]
    rw [List.drop_left' (by simp; omega)]
    have hdecomp : (pm.drop (i + 1)).dropLast
        ++ [(pm.drop (i + 1)).getLast hr] = pm.drop (i + 1) :=
      List.dropLast_concat_getLast hr
    constructor
    · intro hx
      rw [List.mem_cons] at hx
      rw [← hdecomp, List.mem_append, List.mem_singleton]
      tauto
    · intro hx
      rw [← hdecomp, List.mem_append, List.mem_singleton] at hx
      rw [List.mem_cons]
      tauto

theorem get?_eq_some_getElem {α : Type} (l : List α) (i : Nat) (h : i < l.length) :
    l.get? i = some l[i] := by
  rw [List.get?_eq_getElem?]
  exact List.getElem?_eq_getElem h

theorem searchInner_some (c : Char) (patLen cur : Nat) :
    ∀ (fuel : Nat) (pm : List (Char × List Char)) (i : Nat),
      fuel = pm.length - i → i ≤ pm.length → (c, []) ∈ pm.drop i →
      searchInner c patLen cur fuel pm i = (some (cur - patLen, cur), []) := by
  intro fuel
  induction fuel with
  | zero =>
    intro pm i hfuel hi hmem
    have hieq : i = pm.length := by omega
    rw [hieq, List.drop_length] at hmem
    simp at hmem
  | succ fuel ih =>
    intro pm i hfuel hi hmem
    have hlt : i < pm.length := by omega
    rw [List.drop_eq_getElem_cons hlt] at hmem
    simp only [searchInner, get?_eq_some_getElem pm i hlt]
    by_cases hc : c = pm[i].1
    · rcases he2 : pm[i].2 with _ | ⟨r, rs⟩
      · simp only [if_pos hc, he2]
      · simp only [if_pos hc, he2]
        apply ih
        · simp only [List.length_set]; omega
        · simp only [List.length_set]; omega
        · rw [List.drop_set_of_lt _ _ (by omega)]
          rcases List.mem_cons.mp hmem with hx | hx
          · exfalso
            rw [← hx] at he2
            simp at he2
          · exact hx
    · simp only [if_neg hc]
      apply ih
      · rw [swapRemove_length _ _ hlt]; omega
      · rw [swapRemove_length _ _ hlt]; omega
      · rw [swapRemove_drop_mem _ _ hlt]
        rcases List.mem_cons.mp hmem with hx | hx
        · exfalso
          rw [← hx] at hc
          simp at hc
        · exact hx

theorem advancePM_cons_hit (c : Char) (e : Char × List Char)
    (r : Char) (rs : List Char) (l : List (Char × List Char))
    (hc : e.1 = c) (he2 : e.2 = r :: rs) :
    advancePM c (e :: l) = (r, rs) :: advancePM c l := by
  simp only [advancePM, List.filterMap_cons, if_pos hc, he2]

theorem advancePM_cons_miss (c : Char) (e : Char × List Char)
    (l : List (Char × List Char)) (hc : ¬ e.1 = c) :
    advancePM c (e :: l) = advancePM c l := by
  simp only [advancePM, List.filterMap_cons, if_neg hc]

theorem advancePM_mem_congr (c : Char) (l1 l2 : List (Char × List Char))
    (h : ∀ y, y ∈ l1 ↔ y ∈ l2) (x : Char × List Char) :
    x ∈ advancePM c l1 ↔ x ∈ advancePM c l2 := by
  unfold advancePM
  rw [List.mem_filterMap, List.mem_filterMap]
  constructor
  · rintro ⟨a, ha, hfa⟩
    exact ⟨a, (h a).mp ha, hfa⟩
  · rintro ⟨a, ha, hfa⟩
    exact ⟨a, (h a).mpr ha, hfa⟩

theorem searchInner_none (c : Char) (patLen cur : Nat) :
    ∀ (fuel : Nat) (pm : List (Char × List Char)) (i : Nat),
      fuel = pm.length - i → i ≤ pm.length →
      ((c, []) ∉ pm.drop i) →
      ∃ pm2, searchInner c patLen cur fuel pm i = (none, pm2) ∧
        ∀ x, x ∈ pm2 ↔ (x ∈ pm.take i ∨ x ∈ advancePM c (pm.drop i)) := by
  intro fuel
  induction fuel with
  | zero =>
    intro pm i hfuel hi hne
    have hieq : i = pm.length := by omega
    refine ⟨pm, rfl, ?_⟩
    intro x
    rw [hieq, List.take_length, List.drop_length]
    simp [advancePM]
  | succ fuel ih =>
    intro pm i hfuel hi hne
    have hlt : i < pm.length := by omega
    have hdcons : pm.drop i = pm[i] :: pm.drop (i + 1) := List.drop_eq_getElem_cons hlt
    rw [hdcons] at hne
    simp only [List.mem_cons, not_or] at hne
    rcases hne with ⟨hnehead, hnetail⟩
    simp only [searchInner, get?_eq_some_getElem pm i hlt]
    by_cases hc : c = pm[i].1
    · rcases he2 : pm[i].2 with _ | ⟨r, rs⟩
      · exfalso
        apply hnehead
        have : pm[i] = (pm[i].1, pm[i].2) := rfl
        rw [this, he2, ← hc]
      · simp only [if_pos hc, he2]
        obtain ⟨pm2, heq, hmem⟩ := ih (pm.set i (r, rs)) (i + 1)
          (by simp only [List.length_set]; omega)
          (by simp only [List.length_set]; omega)
          (by rw [List.drop_set_of_lt _ _ (by omega)]; exact hnetail)
        refine ⟨pm2, heq, ?_⟩
        intro x
        rw [hmem x]
        rw [List.drop_set_of_lt _ _ (by omega)]
        have htake : (pm.set i (r, rs)).take (i + 1) = pm.take i ++ [(r, rs)] := by
          rw [List.set_eq_take_cons_drop _ hlt]
          rw [show pm.take i ++ (r, rs) :: pm.drop (i + 1)
              = (pm.take i ++ [(r, rs)]) ++ pm.drop (i + 1) by simp]
          exact List.take_left' (by simp; omega)
        rw [htake, hdcons, advancePM_cons_hit c pm[i] r rs _ (by rw [← hc]) he2]
        simp only [List.mem_append, List.mem_singleton, List.mem_cons]
        tauto
    · simp only [if_neg hc]
      obtain ⟨pm2, heq, hmem⟩ := ih (swapRemove pm i) i
        (by rw [swapRemove_length _ _ hlt]; omega)
        (by rw [swapRemove_length _ _ hlt]; omega)
        (by rw [swapRemove_drop_mem _ _ hlt]; exact hnetail)
      refine ⟨pm2, heq, ?_⟩
      intro x
      rw [hmem x]
      rw [swapRemove_take _ _ hlt]
      rw [advancePM_mem_congr c _ _ (swapRemove_drop_mem _ _ hlt)]
      rw [hdcons, advancePM_cons_miss c pm[i] _ (by intro hcc; exact hc hcc.symm)]

theorem isPrefixOf_iff_get (t v : List Char) :
    t.isPrefixOf v = true ↔
      (t.length ≤ v.length ∧ ∀ m, m < t.length → t.get? m = v.get? m) := by
  induction t generalizing v with
  | nil => simp [List.isPrefixOf]
  | cons a as ih =>
    cases v with
    | nil => simp [List.isPrefixOf]
    | cons b bs =>
      simp only [List.isPrefixOf, Bool.and_eq_true, beq_iff_eq, List.length_cons]
      rw [ih bs]
      constructor
      · rintro ⟨hab, hlen, hget⟩
        refine ⟨by omega, ?_⟩
        intro m hm
        cases m with
        | zero => simp [hab]
        | succ j => simpa using hget j (by omega)
      · rintro ⟨hlen, hget⟩
        have h0 := hget 0 (by omega)
        simp only [List.get?] at h0
        refine ⟨by injection h0, by omega, ?_⟩
        intro m hm
        have := hget (m + 1) (by omega)
        simpa using this

theorem get?_head_of_drop {l : List Char} {d : Nat} {x : Char} {xs : List Char}
    (h : l.drop d = x :: xs) : l.get? d = some x := by
  have h0 : (l.drop d).get? 0 = l.get? (d + 0) := List.get?_drop l d 0
  rw [h] at h0
  simpa using h0.symm

theorem drop_succ_of_drop_cons {l : List Char} {d : Nat} {x : Char} {xs : List Char}
    (h : l.drop d = x :: xs) : l.drop (d + 1) = xs := by
  have h1 : (l.drop d).drop 1 = l.drop (d + 1) := List.drop_drop 1 d l
  rw [h] at h1
  simpa using h1.symm

theorem firstOcc_none_iff (p : Char) (ps : List Char) (u : List Char) :
    firstOcc p ps u = none ↔ ∀ j, ¬ ((p :: ps).isPrefixOf (u.drop j) = true) := by
  induction u with
  | nil =>
    simp only [firstOcc, List.drop_nil, true_iff]
    intro j
    simp [List.isPrefixOf]
  | cons c cs ih =>
    rw [firstOcc]
    by_cases hp : (p :: ps).isPrefixOf (c :: cs) = true
    · rw [if_pos hp]
      constructor
      · intro h; cases h
      · intro h
        exact absurd hp (by simpa using h 0)
    · rw [if_neg hp]
      rw [Option.map_eq_none']
      rw [ih]
      constructor
      · intro h j
        cases j with
        | zero => simpa using hp
        | succ m => simpa using h m
      · intro h j
        have := h (j + 1)
        simpa using this

theorem firstOcc_some_iff (p : Char) (ps : List Char) (u : List Char) (s : Nat) :
    firstOcc p ps u = some s ↔
      ((p :: ps).isPrefixOf (u.drop s) = true ∧
       ∀ j, j < s → ¬ ((p :: ps).isPrefixOf (u.drop j) = true)) := by
  induction u generalizing s with
  | nil =>
    simp only [firstOcc, List.drop_nil]
    constructor
    · intro h; cases h
    · rintro ⟨h, -⟩
      simp [List.isPrefixOf] at h
  | cons c cs ih =>
    rw [firstOcc]
    by_cases hp : (p :: ps).isPrefixOf (c :: cs) = true
    · rw [if_pos hp]
      constructor
      · intro h
        injection h with h
        rw [← h]
        exact ⟨by simpa using hp, by intro j hj; omega⟩
      · rintro ⟨hocc, hmin⟩
        cases s with
        | zero => rfl
        | succ m => exact absurd (by simpa using hp) (hmin 0 (by omega))
    · rw [if_neg hp]
      cases s with
      | zero =>
        constructor
        · intro h
          rw [Option.map_eq_some'] at h
          rcases h with ⟨a, -, ha⟩
          omega
        · rintro ⟨hocc, -⟩
          exact absurd (by simpa using hocc) hp
      | succ m =>
        rw [Option.map_eq_some']
        constructor
        · rintro ⟨a, ha, haeq⟩
          have ham : a = m := by omega
          rw [ham] at ha
          rcases (ih m).mp ha with ⟨hocc, hmin⟩
          refine ⟨by simpa using hocc, ?_⟩
          intro j hj
          cases j with
          | zero => exact hp
          | succ jm => simpa using hmin jm (by omega)
        · rintro ⟨hocc, hmin⟩
          refine ⟨m, ?_, by omega⟩
          rw [ih m]
          refine ⟨by simpa using hocc, ?_⟩
          intro j hj
          have := hmin (j + 1) (by omega)
          simpa using this

theorem occ_bound (p : Char) (ps : List Char) (u : List Char) (j : Nat)
    (h : (p :: ps).isPrefixOf (u.drop j) = true) :
    j + (ps.length + 1) ≤ u.length := by
  rcases (isPrefixOf_iff_get _ _).mp h with ⟨hlen, -⟩
  simp only [List.length_cons, List.length_drop] at hlen
  omega

theorem greedySearch_fuel (p : Char) (ps : List Char) :
    ∀ (f1 f2 : Nat) (u : List Char) (base : Nat),
      u.length < f1 → u.length < f2 →
      greedySearch p ps f1 u base = greedySearch p ps f2 u base := by
  intro f1
  induction f1 with
  | zero =>
    intro f2 u base h1 h2
    omega
  | succ f1 ih =>
    intro f2 u base h1 h2
    cases f2 with
    | zero => omega
    | succ f2 =>
      rw [greedySearch, greedySearch]
      cases hocc : firstOcc p ps u with
      | none => rfl
      | some s =>
        dsimp only
        have hb : s + (ps.length + 1) ≤ u.length :=
          occ_bound p ps u s ((firstOcc_some_iff p ps u s).mp hocc).1
        congr 1
        apply ih
        · simp only [List.length_drop]; omega
        · simp only [List.length_drop]; omega

theorem matchUpTo_full_iff (p : Char) (ps u : List Char) (j : Nat) :
    matchUpTo p ps u j (j + (ps.length + 1)) ↔
      (p :: ps).isPrefixOf (u.drop j) = true := by
  rw [isPrefixOf_iff_get]
  unfold matchUpTo
  have hjm : (j + (ps.length + 1)) - j = ps.length + 1 := by omega
  rw [hjm]
  constructor
  · intro h
    have hlast := h ps.length (by omega)
    have hsome : (p :: ps).get? ps.length = some ((p :: ps).getLast (by simp)) := by
      rw [List.getLast_eq_get]
      exact List.get?_eq_get (by simp)
    have hlt : j + ps.length < u.length := by
      by_contra hc
      have hnone : u.get? (j + ps.length) = none := List.get?_eq_none.mpr (by omega)
      rw [hnone, hsome] at hlast
      cases hlast
    constructor
    · simp only [List.length_cons, List.length_drop]
      omega
    · intro m hm
      rw [List.get?_drop]
      exact h m (by simpa using hm)
  · rintro ⟨hlen, hget⟩
    intro m hm
    rw [← List.get?_drop]
    exact hget m (by simpa using hm)

theorem mem_advancePM (c : Char) (l : List (Char × List Char))
    (x : Char × List Char) :
    x ∈ advancePM c l ↔ ∃ y ∈ l, y.1 = c ∧ y.2 = x.1 :: x.2 := by
  unfold advancePM
  rw [List.mem_filterMap]
  constructor
  · rintro ⟨y, hy, hf⟩
    by_cases h1 : y.1 = c
    · rw [if_pos h1] at hf
      rcases h2 : y.2 with _ | ⟨r, rs⟩
      · rw [h2] at hf; cases hf
      · rw [h2] at hf
        injection hf with hh
        refine ⟨y, hy, h1, ?_⟩
        rw [h2, ← hh]
    · rw [if_neg h1] at hf; cases hf
  · rintro ⟨y, hy, h1, h2⟩
    refine ⟨y, hy, ?_⟩
    rw [if_pos h1, h2]

theorem searchLoop_spec (p : Char) (ps : List Char) :
    ∀ (n : Nat) (u : List Char) (k : Nat) (pm : List (Char × List Char)) (i0 : Nat),
      u.length - k = n → k ≤ u.length → pmInv p ps u k pm →
      searchLoop p ps (u.drop k) (i0 + k) pm
        = (greedySearch p ps (u.length + 1) u i0).map
            (fun s => (s, s + (ps.length + 1))) := by
  intro n
  induction n with
  | zero =>
    intro u k pm i0 hn hk hinv
    have hkeq : k = u.length := by omega
    rw [hkeq, List.drop_length]
    rw [searchLoop]
    have hocc : firstOcc p ps u = none := by
      rw [firstOcc_none_iff]
      intro j hj
      have hb := occ_bound p ps u j hj
      have hC := hinv.2.2 j (by omega)
      rw [matchUpTo_full_iff] at hC
      exact hC hj
    rw [greedySearch, hocc]
    rfl
  | succ n ih =>
    intro u k pm i0 hn hk hinv
    have hklt : k < u.length := by omega
    have hdrop : u.drop k = u[k] :: u.drop (k + 1) := List.drop_eq_getElem_cons hklt
    rw [hdrop]
    simp only [searchLoop]
    by_cases hcomp : ((u[k], ([] : List Char)) ∈ pm ++ [(p, ps)])
    · have hsi := searchInner_some u[k] (ps.length + 1) (i0 + k + 1)
        (pm ++ [(p, ps)]).length (pm ++ [(p, ps)]) 0 (by omega) (by omega)
        (by simpa using hcomp)
      rw [hsi]
      have hex : ∃ j, j + (ps.length + 1) = k + 1 ∧
          matchUpTo p ps u j (j + (ps.length + 1)) := by
        rcases List.mem_append.mp hcomp with hin | hin
        · rcases hinv.1 _ hin with ⟨j, hjk, hjr, hjm, hjd⟩
          have hlen : (ps.length + 1) - (k - j) = 1 := by
            have := congrArg List.length hjd
            simp only [List.length_drop, List.length_cons, List.length_nil] at this
            omega
          refine ⟨j, by omega, ?_⟩
          intro m hm
          by_cases hmk : m < k - j
          · exact hjm m hmk
          · have hmeq : m = k - j := by omega
            rw [hmeq, get?_head_of_drop hjd]
            have hjk2 : j + (k - j) = k := by omega
            rw [hjk2, get?_eq_some_getElem u k hklt]
        · rw [List.mem_singleton] at hin
          have hp : p = u[k] := by
            have := congrArg Prod.fst hin
            simpa using this.symm
          have hps : ps = [] := by
            have := congrArg Prod.snd hin
            simpa using this.symm
          refine ⟨k, by rw [hps]; simp, ?_⟩
          intro m hm
          rw [hps] at hm
          simp only [List.length_nil] at hm
          have hm0 : m = 0 := by omega
          rw [hm0, hp]
          simp [get?_eq_some_getElem u k hklt]
      obtain ⟨j, hjL, hjfull⟩ := hex
      have hocc : firstOcc p ps u = some j := by
        rw [firstOcc_some_iff]
        constructor
        · rw [← matchUpTo_full_iff]
          exact hjfull
        · intro j2 hj2 hocc2
          have hC := hinv.2.2 j2 (by omega)
          rw [matchUpTo_full_iff] at hC
          exact hC hocc2
      rw [greedySearch, hocc]
      dsimp only
      congr 1
      · have e1 : i0 + k + 1 - (ps.length + 1) = i0 + j := by omega
        have e2 : i0 + k + 1 = i0 + j + (ps.length + 1) := by omega
        rw [e1, e2]
      · have hinv0 : pmInv p ps (u.drop (k + 1)) 0 [] := by
          refine ⟨?_, ?_, ?_⟩
          · intro x hx
            cases hx
          · intro j2 hj2 hrange hmatch
            omega
          · intro j2 hj2 hmatch
            omega
        have htail := ih (u.drop (k + 1)) 0 [] (i0 + k + 1)
          (by simp only [List.length_drop]; omega) (by omega) hinv0
        simp only [List.drop_zero, Nat.add_zero] at htail
        rw [hjL]
        have e3 : i0 + j + (ps.length + 1) = i0 + k + 1 := by omega
        rw [e3, htail]
        congr 1
        apply greedySearch_fuel
        · simp only [List.length_drop]
          omega
        · simp only [List.length_drop]
          omega
    · obtain ⟨pm2, heq, hmem⟩ := searchInner_none u[k] (ps.length + 1) (i0 + k + 1)
        (pm ++ [(p, ps)]).length (pm ++ [(p, ps)]) 0 (by omega) (by omega)
        (by simpa using hcomp)
      rw [heq]
      have hmem2 : ∀ x, x ∈ pm2 ↔ x ∈ advancePM u[k] (pm ++ [(p, ps)]) := by
        intro x
        rw [hmem x]
        simp only [List.take_zero, List.drop_zero, List.not_mem_nil, false_or]
      have hinv2 : pmInv p ps u (k + 1) pm2 := by
        refine ⟨?_, ?_, ?_⟩
        · intro x hx
          rw [hmem2 x, mem_advancePM] at hx
          rcases hx with ⟨y, hy, hyc, hy2⟩
          rcases List.mem_append.mp hy with hyin | hyin
          · rcases hinv.1 _ hyin with ⟨j, hjk, hjr, hjm, hjd⟩
            have hjd2 : (p :: ps).drop (k - j) = u[k] :: x.1 :: x.2 := by
              rw [hjd, hyc, hy2]
            have hlen2 : 2 ≤ (ps.length + 1) - (k - j) := by
              have := congrArg List.length hjd2
              simp only [List.length_drop, List.length_cons] at this
              omega
            refine ⟨j, by omega, by omega, ?_, ?_⟩
            · intro m hm
              by_cases hmk : m < k - j
              · exact hjm m hmk
              · have hmeq : m = k - j := by omega
                rw [hmeq, get?_head_of_drop hjd2]
                have hjk2 : j + (k - j) = k := by omega
                rw [hjk2, get?_eq_some_getElem u k hklt]
            · have hs : (k + 1) - j = (k - j) + 1 := by omega
              rw [hs]
              exact drop_succ_of_drop_cons hjd2
          · rw [List.mem_singleton] at hyin
            have hp : p = u[k] := by
              rw [hyin] at hyc
              simpa using hyc
            have hps : ps = x.1 :: x.2 := by
              rw [hyin] at hy2
              simpa using hy2
            have hpslen : 1 ≤ ps.length := by
              rw [hps]
              simp
            refine ⟨k, by omega, by omega, ?_, ?_⟩
            · intro m hm
              have hm0 : m = 0 := by omega
              rw [hm0, hp]
              simp [get?_eq_some_getElem u k hklt]
            · have hs : (k + 1) - k = 1 := by omega
              rw [hs]
              simpa using hps
        · intro j hj hr hm
          by_cases hjk : j = k
          · subst hjk
            have h1 : (j + 1) - j = 1 := by omega
            rw [h1] at hr
            rcases hps : ps with _ | ⟨r, rs⟩
            · rw [hps] at hr
              simp at hr
            · have hm0 := hm 0 (by omega)
              have hp : p = u[j] := by
                have hu : u.get? (j + 0) = some u[j] := by
                  rw [Nat.add_zero]
                  exact get?_eq_some_getElem u j hklt
                rw [hu] at hm0
                simp only [List.get?] at hm0
                exact Option.some.inj hm0
              refine ⟨(r, rs), ?_, ?_⟩
              · rw [hmem2, mem_advancePM]
                exact ⟨(p, ps), by simp, by simpa using hp, by simp [hps]⟩
              · rw [h1]
                simp
          · have hjlt : j < k := by omega
            have hr2 : k - j < ps.length + 1 := by omega
            have hm2 : matchUpTo p ps u j k := by
              intro m hmm
              exact hm m (by omega)
            rcases hinv.2.1 j hjlt hr2 hm2 with ⟨y, hy, hyd⟩
            have hy1 : y.1 = u[k] := by
              have hg := get?_head_of_drop hyd
              have hmk := hm (k - j) (by omega)
              have hjk2 : j + (k - j) = k := by omega
              rw [hjk2, get?_eq_some_getElem u k hklt, hg] at hmk
              injection hmk
            have hy2ne : y.2 ≠ [] := by
              have hld := congrArg List.length hyd
              simp only [List.length_drop, List.length_cons] at hld
              intro hc
              rw [hc] at hld
              simp at hld
              omega
            rcases hys : y.2 with _ | ⟨r, rs⟩
            · exact absurd hys hy2ne
            · refine ⟨(r, rs), ?_, ?_⟩
              · rw [hmem2, mem_advancePM]
                exact ⟨y, List.mem_append_left _ hy, hy1, by simp [hys]⟩
              · have hs : (k + 1) - j = (k - j) + 1 := by omega
                rw [hs]
                rw [drop_succ_of_drop_cons hyd, hys]
        · intro j hj hfull
          by_cases hjk : j + (ps.length + 1) ≤ k
          · exact hinv.2.2 j hjk hfull
          · have hjL : j + (ps.length + 1) = k + 1 := by omega
            apply hcomp
            rcases hpsnil : ps with _ | ⟨a, as⟩
            · have hjeq : j = k := by
                rw [hpsnil] at hjL
                simp at hjL
                omega
              have hm0 := hfull 0 (by omega)
              rw [hjeq] at hm0
              have hp : p = u[k] := by
                have hu : u.get? (k + 0) = some u[k] := by
                  rw [Nat.add_zero]
                  exact get?_eq_some_getElem u k hklt
                rw [hu] at hm0
                simp only [List.get?] at hm0
                exact Option.some.inj hm0
              apply List.mem_append_right
              rw [List.mem_singleton, ← hp]
            · have hpsl : 1 ≤ ps.length := by
                rw [hpsnil]
                simp
              have hjlt : j < k := by omega
              have hr2 : k - j < ps.length + 1 := by omega
              have hm2 : matchUpTo p ps u j k := by
                intro m hmm
                apply hfull
                omega
              rcases hinv.2.1 j hjlt hr2 hm2 with ⟨y, hy, hyd⟩
              have hkj : k - j = ps.length := by omega
              have hy2 : y.2 = [] := by
                have hld := congrArg List.length hyd
                simp only [List.length_drop, List.length_cons] at hld
                rw [← List.length_eq_zero]
                omega
              have hy1 : y.1 = u[k] := by
                have hg := get?_head_of_drop hyd
                have hmk := hfull (k - j) (by omega)
                have hjk2 : j + (k - j) = k := by omega
                rw [hjk2, get?_eq_some_getElem u k hklt, hg] at hmk
                injection hmk
              apply List.mem_append_left
              have hyeq : y = (u[k], []) := by
                rcases y with ⟨y1, y2⟩
                simp only at hy1 hy2
                rw [hy1, hy2]
              rw [← hyeq]
              exact hy
      have e4 : i0 + k + 1 = i0 + (k + 1) := by omega
      rw [e4]
      exact ih u (k + 1) pm2 i0 (by omega) (by omega) hinv2

theorem search_eq_greedy (s : Code) (p : Char) (ps : List Char) :
    s.search (p :: ps)
      = some ((greedySearch p ps (s.text.length + 1) s.text 0).map
          (fun j => position_to_point s.text j)) := by
  unfold Code.search
  have hinv0 : pmInv p ps s.text 0 [] := by
    refine ⟨?_, ?_, ?_⟩
    · intro x hx
      cases hx
    · intro j hj hr hm
      omega
    · intro j hj hm
      omega
  have hspec := searchLoop_spec p ps (s.text.length) s.text 0 [] 0 (by omega)
    (by omega) hinv0
  simp only [List.drop_zero, Nat.add_zero] at hspec
  dsimp only
  rw [hspec]
  congr 1
  rw [List.map_map]
  rfl

/-- Claim C4 (counterexample): in the document `"///"` the pattern `"//"`
occurs as a substring at columns 0 and 1, but `search` returns only
`[(0, 0)]`: the occurrence at column 1 overlaps the reported match and is
skipped. -/
theorem C4_counterexample :
    (Code.from_str "///".toList).search "//".toList = some [(0, 0)] ∧
    "//".toList.isPrefixOf ((Code.from_str "///".toList).text.drop 1) = true ∧
    ((0 : Nat), (1 : Nat)) ∉ [((0 : Nat), (0 : Nat))] := by decide

/-- Claim C4 (amended): `search(pattern)` returns the `(row, col)` positions
of the successive leftmost non-overlapping occurrences of the pattern (each
scan resumes just past the end of the previous match, so overlapping
occurrences are skipped), in document order; in `"// comment //"`,
`search("//")` returns `[(0,0),(0,11)]`. -/
theorem C4_search_nonoverlapping (s : Code) (p : Char) (ps : List Char) :
    s.search (p :: ps)
      = some ((greedySearch p ps (s.text.length + 1) s.text 0).map
          (fun j => position_to_point s.text j)) ∧
    (Code.from_str "// comment //".toList).search "//".toList
      = some [(0, 0), (0, 11)] :=
  ⟨search_eq_greedy s p ps, by decide⟩
